import Mathlib

/-!
Verification of the sieve-goldbach certification-table pipeline.

Each definition below is a shallow embedding of a function of the repository
(`src/bin/summarizeboundratio.py`, `src/bin/summarizelambdabound.py`,
`src/bin/summarizelambdaboundcert.py`, `src/bin/summarizeboundscert.py`,
`src/bin/summarizelambdaboundaudit.py`).  Python machine floats are modelled
as exact rationals (`ℚ`), sample indices as `ℤ`, and the standard deviation
(the one place the code takes a square root) as a real number.  Fallible
parsing is modelled with `Option`; the one place the scripts let an exception
escape a row loop is modelled with `Except`.
-/

attribute [local semireducible] Rat.add Rat.sub Rat.mul Rat.inv Rat.ofScientific

/-- Models Python `str.strip()` on the character list: drop whitespace from
both ends. -/
def stripChars (cs : List Char) : List Char :=
  ((cs.dropWhile Char.isWhitespace).reverse.dropWhile Char.isWhitespace).reverse

/-- Models Python `str.strip()` on strings. -/
def pyStrip (s : String) : String := String.mk (stripChars s.data)

/-- Numeric value of a digit string (most significant first). -/
def natVal (cs : List Char) : ℕ := cs.foldl (fun a c => 10 * a + (c.toNat - 48)) 0

/-- Value of a nonempty all-digit character list, `none` otherwise. -/
def digitsVal? (cs : List Char) : Option ℕ :=
  if cs ≠ [] ∧ cs.all Char.isDigit then some (natVal cs) else none

/-- Unsigned part of the decimal grammar accepted by Python `float()`:
`digits`, `digits.digits`, `digits.` or `.digits` (exponent, infinity, nan
and underscore forms are not modelled; no input of the pipeline uses them). -/
def parseUnsigned? (cs : List Char) : Option ℚ :=
  let ip := cs.takeWhile Char.isDigit
  let rest := cs.dropWhile Char.isDigit
  match rest with
  | [] => if ip.isEmpty then none else some (natVal ip)
  | '.' :: r2 =>
    let fp := r2.takeWhile Char.isDigit
    let r3 := r2.dropWhile Char.isDigit
    if r3.isEmpty then
      if ip.isEmpty && fp.isEmpty then none
      else some ((natVal ip : ℚ) + (natVal fp : ℚ) / (10 : ℚ) ^ fp.length)
    else none
  | _ => none

/-- Models Python `float(s)` on a string: strip whitespace, optional sign,
decimal number; `none` models a raised `ValueError`. -/
def pyFloat? (s : String) : Option ℚ :=
  match stripChars s.data with
  | '+' :: r => parseUnsigned? r
  | '-' :: r => (parseUnsigned? r).map (fun q => -q)
  | cs => parseUnsigned? cs

/-- Models Python `int(s)` on a string: strip whitespace, optional sign,
digits only; `none` models a raised `ValueError`. -/
def pyInt? (s : String) : Option ℤ :=
  match stripChars s.data with
  | '+' :: r => (digitsVal? r).map (fun n => (n : ℤ))
  | '-' :: r => (digitsVal? r).map (fun n => -(n : ℤ))
  | cs => (digitsVal? cs).map (fun n => (n : ℤ))

namespace LambdaboundPlot

/-- Embeds `parse_lambda` of `src/bin/summarizelambdabound.py` (lines 59-66):
empty, whitespace-only, or exactly the `"0.000000"` sentinel give `None`;
otherwise `float(value_str)` with `ValueError` giving `None`. -/
def parse_lambda (s : String) : Option ℚ :=
  if s = "" ∨ pyStrip s = "" ∨ s = "0.000000" then none else pyFloat? s

end LambdaboundPlot

namespace BoundratioPlot

/-- Embeds `parse_float` of `src/bin/summarizeboundratio.py` (lines 59-66):
empty or whitespace-only gives `None`; otherwise `float(value_str)` with
`ValueError` giving `None`.  No zero sentinel. -/
def parse_float (s : String) : Option ℚ :=
  if s = "" ∨ pyStrip s = "" then none else pyFloat? s

end BoundratioPlot

namespace LambdaboundCert

/-- Embeds `parse_float` of `src/bin/summarizelambdaboundcert.py` (lines
29-38): strip, then empty or exactly `"0.000000"` gives `None`; otherwise
`float` of the stripped string. -/
def parse_float (s : String) : Option ℚ :=
  let t := pyStrip s
  if t = "" ∨ t = "0.000000" then none else pyFloat? t

end LambdaboundCert

namespace BoundsCert

/-- Embeds `parse_float` of `src/bin/summarizeboundscert.py` (lines 35-44):
strip, then empty gives `None`; otherwise `float` of the stripped string.
No zero sentinel. -/
def parse_float (s : String) : Option ℚ :=
  let t := pyStrip s
  if t = "" then none else pyFloat? t

end BoundsCert

/-- Fuel-bounded loop of backward window starts.  Models the
`while batch_start >= 0` loop of `process_file` in
`src/bin/summarizeboundratio.py` (lines 84-137) and
`src/bin/summarizelambdabound.py` (lines 89-129): the current start is
emitted, the loop breaks after start `0`, otherwise the start moves to
`max(0, batch_start - batch_size)`.  The fuel argument only bounds the
iteration count (the Python loop does not terminate for `W = 0`; for
`W ≥ 1` a fuel of `s` is always sufficient, see `backStartsFuel_irrel`). -/
def backStartsFuel (W : ℕ) : ℕ → ℕ → List ℕ
  | _, 0 => [0]
  | 0, s + 1 => [s + 1]
  | f + 1, s + 1 => (s + 1) :: backStartsFuel W f (s + 1 - W)

/-- Backward window starts from initial start `s = max(0, L - W)`. -/
def backStarts (W s : ℕ) : List ℕ := backStartsFuel W s s

/-- Embeds the batch layout of `process_file`: if the file is empty no
window is produced; otherwise each start `s` yields the slice
`rows[s : min(s + W, len(rows))]` (Lean `drop`/`take` clamp exactly like the
Python slice), starting from `max(0, L - W)`, in loop order (most recent
window first). -/
def process_windows {α : Type} (rows : List α) (W : ℕ) : List (List α) :=
  if rows.length = 0 then []
  else (backStarts W (rows.length - W)).map (fun s => (rows.drop s).take W)

/-- Output row of the plotting summarizers: the dict
`{'alpha', 'n_min_lambda', 'min_lambda', 'n_max_lambda', 'max_lambda'}`
built in `process_file` of both plotting scripts.  Fields other than
`alpha` hold `None` exactly when the Python value is `None`. -/
structure SummaryRow where
  alpha : ℚ
  n_min_lambda : Option ℤ
  min_lambda : Option ℚ
  n_max_lambda : Option ℤ
  max_lambda : Option ℚ
deriving DecidableEq

/-- Per-batch accumulator: the four locals `min_lambda`, `min_lambda_n`,
`max_lambda`, `max_lambda_n` of the batch loop. -/
structure BatchAcc where
  min_lambda : Option ℚ
  min_lambda_n : Option ℤ
  max_lambda : Option ℚ
  max_lambda_n : Option ℤ
deriving DecidableEq

/-- All four locals start as `None`. -/
def initAcc : BatchAcc := ⟨none, none, none, none⟩

/-- One valid `(n, value)` pair updating the accumulator: the two
`if min_lambda is None or lambda_val < min_lambda` /
`if max_lambda is None or lambda_val > max_lambda` blocks (strict
comparisons, so an equal value never replaces the recorded extremum). -/
def accPair (acc : BatchAcc) (p : ℤ × ℚ) : BatchAcc :=
  let acc1 :=
    match acc.min_lambda with
    | none => { acc with min_lambda := some p.2, min_lambda_n := some p.1 }
    | some m =>
      if p.2 < m then { acc with min_lambda := some p.2, min_lambda_n := some p.1 } else acc
  match acc1.max_lambda with
  | none => { acc1 with max_lambda := some p.2, max_lambda_n := some p.1 }
  | some m =>
    if m < p.2 then { acc1 with max_lambda := some p.2, max_lambda_n := some p.1 } else acc1

/-- Running first-seen minimum over `(n, value)` pairs (specification-side
helper for the min component of `accPair`). -/
def minStep (acc : Option (ℤ × ℚ)) (p : ℤ × ℚ) : Option (ℤ × ℚ) :=
  match acc with
  | none => some p
  | some q => if p.2 < q.2 then some p else some q

/-- Running first-seen maximum over `(n, value)` pairs. -/
def maxStep (acc : Option (ℤ × ℚ)) (p : ℤ × ℚ) : Option (ℤ × ℚ) :=
  match acc with
  | none => some p
  | some q => if q.2 < p.2 then some p else some q

/-- Packs a running first-seen minimum and maximum into the accumulator
shape used by the batch loops (specification-side helper). -/
def accOf (om ox : Option (ℤ × ℚ)) : BatchAcc :=
  ⟨om.map Prod.snd, om.map Prod.fst, ox.map Prod.snd, ox.map Prod.fst⟩

/-- The pair `p` carries the minimum value of the list `l`, and it occurs at
a position before which every pair has a strictly larger value (so an equal
later value can never be the recorded one). -/
def isFirstMin (l : List (ℤ × ℚ)) (p : ℤ × ℚ) : Prop :=
  (∀ q ∈ l, p.2 ≤ q.2) ∧
  ∃ i : ℕ, l[i]? = some p ∧ ∀ j : ℕ, j < i → ∀ q : ℤ × ℚ, l[j]? = some q → p.2 < q.2

/-- The pair `p` carries the maximum value of the list `l`, first-seen. -/
def isFirstMax (l : List (ℤ × ℚ)) (p : ℤ × ℚ) : Prop :=
  (∀ q ∈ l, q.2 ≤ p.2) ∧
  ∃ i : ℕ, l[i]? = some p ∧ ∀ j : ℕ, j < i → ∀ q : ℤ × ℚ, l[j]? = some q → q.2 < p.2

namespace BoundratioPlot

/-- Data row of a boundratio file, reduced to the two fields the summary
depends on: the `n` column and the `lambda` column.  The script also parses
a `ratio` column and tracks its extrema (lines 107-114 of
`src/bin/summarizeboundratio.py`), but those locals never reach the output
dict, so they are omitted from the embedding. -/
structure Row where
  n : String
  lam : String
deriving DecidableEq

/-- The row-level part of the batch loop (lines 98-106, 116-123): skip the
row if `n` is empty or fails `int` parsing (guarded by `try`/`except`
`continue`), and contribute no pair if the `lambda` field parses to `None`. -/
def rowPair? (r : Row) : Option (ℤ × ℚ) :=
  if r.n = "" then none
  else
    match pyInt? r.n with
    | none => none
    | some nv =>
      match parse_float r.lam with
      | none => none
      | some v => some (nv, v)

/-- One iteration of the batch loop body. -/
def stepRow (acc : BatchAcc) (r : Row) : BatchAcc :=
  match rowPair? r with
  | none => acc
  | some p => accPair acc p

/-- The valid `(n, lambda)` pairs of a batch, in row order. -/
def validPairs (batch : List Row) : List (ℤ × ℚ) := batch.filterMap rowPair?

/-- One batch of `process_file` (lines 88-133): scan the rows, then append
a summary dict only if at least one lambda was found (suppression rule,
line 126). -/
def process_batch (alpha : ℚ) (batch : List Row) : Option SummaryRow :=
  let acc := batch.foldl stepRow initAcc
  if acc.min_lambda.isSome || acc.max_lambda.isSome then
    some ⟨alpha, acc.min_lambda_n, acc.min_lambda, acc.max_lambda_n, acc.max_lambda⟩
  else none

/-- Embeds `process_file` of `src/bin/summarizeboundratio.py` (lines
69-143): empty file gives no rows, otherwise the backward windows are
processed most recent first and suppressed batches dropped. -/
def process_file (rows : List Row) (alpha : ℚ) (W : ℕ) : List SummaryRow :=
  if rows.length = 0 then []
  else (process_windows rows W).filterMap (process_batch alpha)

end BoundratioPlot

namespace LambdaboundPlot

/-- Data row of a lambdabound file: the value under the selected lambda
column (`row.get(lambda_column, '')`) and the two candidate sample-index
columns `n_0` and `n_1`. -/
structure Row where
  lam : String
  n_0 : String
  n_1 : String
deriving DecidableEq

/-- The row-level part of the batch loop of
`src/bin/summarizelambdabound.py` (lines 99-114): parse the lambda first;
if defined, take `row.get('n_0','') or row.get('n_1','')`; an empty string
skips the row, but a nonempty string that fails `int` parsing raises
`ValueError` (there is no row-level `try` here), modelled as `.error ()`. -/
def rowPairE (r : Row) : Except Unit (Option (ℤ × ℚ)) :=
  match parse_lambda r.lam with
  | none => .ok none
  | some v =>
    let ns := if r.n_0 = "" then r.n_1 else r.n_0
    if ns = "" then .ok none
    else
      match pyInt? ns with
      | none => .error ()
      | some n => .ok (some (n, v))

/-- One iteration of the batch loop body, propagating the exception. -/
def stepRow (acc : BatchAcc) (r : Row) : Except Unit BatchAcc :=
  match rowPairE r with
  | .error e => .error e
  | .ok none => .ok acc
  | .ok (some p) => .ok (accPair acc p)

/-- The valid `(n, lambda)` pairs of a batch, in row order (rows that would
raise contribute nothing; they abort the whole file instead, see
`process_file`). -/
def validPairs (batch : List Row) : List (ℤ × ℚ) :=
  batch.filterMap (fun r =>
    match rowPairE r with
    | .ok o => o
    | .error _ => none)

/-- One batch (lines 89-124): scan the rows, then append a summary dict
only if at least one valid lambda was found (line 117). -/
def process_batch (alpha : ℚ) (batch : List Row) : Except Unit (Option SummaryRow) :=
  match batch.foldlM stepRow initAcc with
  | .error e => .error e
  | .ok acc =>
    .ok
      (if acc.min_lambda.isSome || acc.max_lambda.isSome then
        some ⟨alpha, acc.min_lambda_n, acc.min_lambda, acc.max_lambda_n, acc.max_lambda⟩
      else none)

/-- The batch loop over all windows, appending per-batch results;
a raised exception aborts the remainder. -/
def process_batches (alpha : ℚ) : List (List Row) → Except Unit (List SummaryRow)
  | [] => .ok []
  | b :: bs =>
    match process_batch alpha b with
    | .error e => .error e
    | .ok o =>
      match process_batches alpha bs with
      | .error e => .error e
      | .ok rest =>
        .ok
          (match o with
          | none => rest
          | some s => s :: rest)

/-- Embeds `process_file` of `src/bin/summarizelambdabound.py` (lines
68-135): batch size is the fixed `12`; the whole loop runs inside one
`try`, and `except Exception` (line 131) returns `[]`, discarding every
already-accumulated batch result. -/
def process_file (rows : List Row) (alpha : ℚ) : List SummaryRow :=
  if rows.length = 0 then []
  else
    match process_batches alpha (process_windows rows 12) with
    | .error _ => []
    | .ok res => res

end LambdaboundPlot

namespace Cert

/-- Loop body of `nearest_lambda_with_bracket` (identical in
`src/bin/summarizeboundscert.py` lines 76-82 and
`src/bin/summarizelambdaboundcert.py` lines 94-100): track the pair with
the largest `n ≤ target` and the pair with the smallest `n ≥ target`,
keeping the first-seen pair on equal `n`. -/
def bracketStep (target_n : ℚ) (st : Option (ℤ × ℚ) × Option (ℤ × ℚ)) (p : ℤ × ℚ) :
    Option (ℤ × ℚ) × Option (ℤ × ℚ) :=
  let below :=
    if (p.1 : ℚ) ≤ target_n then
      match st.1 with
      | none => some p
      | some b => if b.1 < p.1 then some p else some b
    else st.1
  let above :=
    if target_n ≤ (p.1 : ℚ) then
      match st.2 with
      | none => some p
      | some a => if p.1 < a.1 then some p else some a
    else st.2
  (below, above)

/-- The `below` component of `bracketStep` in isolation. -/
def belowStep (target_n : ℚ) (acc : Option (ℤ × ℚ)) (p : ℤ × ℚ) : Option (ℤ × ℚ) :=
  if (p.1 : ℚ) ≤ target_n then
    match acc with
    | none => some p
    | some b => if b.1 < p.1 then some p else some b
  else acc

/-- The `above` component of `bracketStep` in isolation. -/
def aboveStep (target_n : ℚ) (acc : Option (ℤ × ℚ)) (p : ℤ × ℚ) : Option (ℤ × ℚ) :=
  if target_n ≤ (p.1 : ℚ) then
    match acc with
    | none => some p
    | some a => if p.1 < a.1 then some p else some a
  else acc

/-- Invariant of the `below` accumulator over the pairs seen so far:
`none` iff no pair lies at or below the target, otherwise a pair from the
list, at or below the target, with the largest sample index among those. -/
def belowInv (target_n : ℚ) (seen : List (ℤ × ℚ)) : Option (ℤ × ℚ) → Prop
  | none => ∀ p ∈ seen, ¬((p.1 : ℚ) ≤ target_n)
  | some b =>
    b ∈ seen ∧ (b.1 : ℚ) ≤ target_n ∧ ∀ p ∈ seen, (p.1 : ℚ) ≤ target_n → p.1 ≤ b.1

/-- Invariant of the `above` accumulator over the pairs seen so far. -/
def aboveInv (target_n : ℚ) (seen : List (ℤ × ℚ)) : Option (ℤ × ℚ) → Prop
  | none => ∀ p ∈ seen, ¬(target_n ≤ (p.1 : ℚ))
  | some a =>
    a ∈ seen ∧ target_n ≤ (a.1 : ℚ) ∧ ∀ p ∈ seen, target_n ≤ (p.1 : ℚ) → a.1 ≤ p.1

/-- Embeds `nearest_lambda_with_bracket` (both cert scripts): one scan for
`below` and `above`; `None` unless both exist; otherwise the nearer value,
preferring `below` on ties. -/
def nearest_lambda_with_bracket (pairs : List (ℤ × ℚ)) (target_n : ℚ) : Option ℚ :=
  match pairs.foldl (bracketStep target_n) (none, none) with
  | (some b, some a) =>
    if |target_n - (b.1 : ℚ)| ≤ |(a.1 : ℚ) - target_n| then some b.2 else some a.2
  | _ => none

/-- Embeds `tail_stats` (both cert scripts: `src/bin/summarizeboundscert.py`
lines 91-98, `src/bin/summarizelambdaboundcert.py` lines 108-114):
`(None, None)` when fewer than `count` pairs exist, else the mean of the
last `count` values and `math.sqrt` of the population variance (division by
`count`).  The square root forces the second component into `ℝ`. -/
noncomputable def tail_stats (pairs : List (ℤ × ℚ)) (count : ℕ) : Option ℚ × Option ℝ :=
  if pairs.length < count then (none, none)
  else
    let tail := (pairs.drop (pairs.length - count)).map Prod.snd
    let mean : ℚ := tail.sum / (count : ℚ)
    let variance : ℚ := (tail.map (fun x => (x - mean) ^ 2)).sum / (count : ℚ)
    (some mean, some (Real.sqrt (variance : ℝ)))

end Cert

namespace LambdaboundCert

/-- Data row of a cert input file: the value in the detected lambda column
and the values in the detected sample-index columns, in the fixed priority
order `n_0`, `n_1`, `n` of `detect_columns`. -/
structure InRow where
  lam : String
  ns : List String
deriving DecidableEq

/-- A located cert input file after `detect_columns`
(`src/bin/summarizelambdaboundcert.py` lines 41-55): whether a lambda
column and at least one sample-index column were found, plus the data rows. -/
structure InFile where
  hasLambdaCol : Bool
  hasNCol : Bool
  rows : List InRow
deriving DecidableEq

/-- Inner `for col in n_cols` loop of `load_lambda_pairs` (lines 70-78):
first candidate whose stripped value is nonempty and parses as `int`;
a parse failure tries the next candidate. -/
def firstN? : List String → Option ℤ
  | [] => none
  | s :: rest =>
    let t := pyStrip s
    if t = "" then firstN? rest
    else
      match pyInt? t with
      | some n => some n
      | none => firstN? rest

/-- Embeds `load_lambda_pairs` of `src/bin/summarizelambdaboundcert.py`
(lines 58-82): empty result when column detection fails; otherwise one
`(n, lambda)` pair per row whose lambda parses and whose index resolves. -/
def load_lambda_pairs (f : InFile) : List (ℤ × ℚ) :=
  if f.hasLambdaCol = false ∨ f.hasNCol = false then []
  else
    f.rows.filterMap (fun r =>
      match parse_float r.lam with
      | none => none
      | some v =>
        match firstN? r.ns with
        | none => none
        | some n => some (n, v))

/-- Output row of the cert table: `alpha` plus the eight derived fields,
each `none` exactly when the script stores the blank string (via
`fmt_value`); the numeric value is kept instead of its five-decimal
rendering.  The two standard-deviation fields live in `ℝ`. -/
structure CertRow where
  alpha : ℚ
  L11_lo : Option ℚ
  L11_hi : Option ℚ
  L13_lo : Option ℚ
  L13_hi : Option ℚ
  Lfinal_lo : Option ℚ
  Lfinal_lo_std : Option ℝ
  Lfinal_hi : Option ℚ
  Lfinal_hi_std : Option ℝ

/-- The all-blank row appended at lines 153-163. -/
def blankRow (a : ℚ) : CertRow := ⟨a, none, none, none, none, none, none, none, none⟩

/-- One alpha directory as `main` sees it: the numeric part of the
directory name, and the min/max input files (`none` when
`min_file.exists()` / `max_file.exists()` is false). -/
structure AlphaDir where
  alphaStr : String
  minFile : Option InFile
  maxFile : Option InFile

/-- Per-alpha body of `main` (lines 138-187): skip the directory when its
name does not parse as a float or when either input file is missing
(`continue`, lines 142-148); append an all-blank row when both files exist
but either series is empty; otherwise compute the four bracketed-nearest
fields at the two targets and the two tail statistics. -/
noncomputable def process_alpha (tail_count : ℕ) (d : AlphaDir) : Option CertRow :=
  match pyFloat? d.alphaStr with
  | none => none
  | some alpha_val =>
    match d.minFile, d.maxFile with
    | some mf, some xf =>
      let min_pairs := load_lambda_pairs mf
      let max_pairs := load_lambda_pairs xf
      if min_pairs.isEmpty || max_pairs.isEmpty then some (blankRow alpha_val)
      else
        let target_l11 : ℚ := 480 ^ 2 / (2 * alpha_val)
        let target_l13 : ℚ := 5760 ^ 2 / (2 * alpha_val)
        some
          ⟨alpha_val,
            Cert.nearest_lambda_with_bracket min_pairs target_l11,
            Cert.nearest_lambda_with_bracket max_pairs target_l11,
            Cert.nearest_lambda_with_bracket min_pairs target_l13,
            Cert.nearest_lambda_with_bracket max_pairs target_l13,
            (Cert.tail_stats min_pairs tail_count).1,
            (Cert.tail_stats min_pairs tail_count).2,
            (Cert.tail_stats max_pairs tail_count).1,
            (Cert.tail_stats max_pairs tail_count).2⟩
    | _, _ => none

/-- Embeds the row-accumulation and output decision of `main` (lines
137-191): the table is written (`some rows`) unless the accumulated row
list is empty, in which case the script prints an error and exits with
status 1 (`none`). -/
noncomputable def cert_main (tail_count : ℕ) (dirs : List AlphaDir) : Option (List CertRow) :=
  let rows := dirs.filterMap (process_alpha tail_count)
  if rows.isEmpty then none else some rows

end LambdaboundCert

namespace LambdaboundAudit

/-- Embeds `TARGET_ALPHAS` of `src/bin/summarizelambdaboundaudit.py`
(lines 17-30), in source order. -/
def TARGET_ALPHAS : List ℚ :=
  [1, 1/2, 1/4, 1/8, 1/16, 1/32, 1/64, 1/128, 1/256, 1/512,
   0.00106494895768, 1/1024]

/-- Default of the `--tolerance` option (line 37). -/
def default_tolerance : ℚ := 1e-12

/-- The `alpha` field of a row dict, with `row.get("alpha", "")`. -/
def rowAlpha (row : List (String × String)) : String := (row.lookup "alpha").getD ""

/-- Row filter of `main` (lines 52-59): keep a row iff its alpha parses as
a float within tolerance of some target (a `ValueError` skips the row). -/
def keepRow (tol : ℚ) (row : List (String × String)) : Bool :=
  match pyFloat? (rowAlpha row) with
  | none => false
  | some a => TARGET_ALPHAS.any (fun t => decide (|a - t| ≤ tol))

/-- The parsed cert table: `none` header models a file whose
`reader.fieldnames` is empty (exit at lines 43-45). -/
structure InTable where
  header : Option (List String)
  rows : List (List (String × String))

/-- Embeds `main` of `src/bin/summarizelambdaboundaudit.py` (lines 40-68):
fail on a missing header; filter the rows; fail when nothing matched;
otherwise write the kept rows unchanged under the input field names. -/
def audit_main (tol : ℚ) (t : InTable) :
    Option (List String × List (List (String × String))) :=
  match t.header with
  | none => none
  | some fields =>
    let kept := t.rows.filter (keepRow tol)
    if kept.isEmpty then none else some (fields, kept)

end LambdaboundAudit

/-! ## Shared parsing facts -/

/-- The empty string strips to itself. -/
theorem pyStrip_empty : pyStrip "" = "" := rfl

/-- C7: the lambda-flavored parsers send the exact sentinel `"0.000000"`
(as well as blank and unparseable strings) to `none`, while the
ratio-flavored parsers treat only blank and unparseable strings as
undefined and parse the sentinel to the number `0`.  Each `none`-condition
is characterized exactly; the stripped string is fed to `float` wherever
the script strips first. -/
theorem c7_sentinel_rules :
    (∀ s : String,
      (LambdaboundPlot.parse_lambda s = none ↔
        pyStrip s = "" ∨ s = "0.000000" ∨ pyFloat? s = none) ∧
      (LambdaboundCert.parse_float s = none ↔
        pyStrip s = "" ∨ pyStrip s = "0.000000" ∨ pyFloat? (pyStrip s) = none) ∧
      (BoundratioPlot.parse_float s = none ↔
        pyStrip s = "" ∨ pyFloat? s = none) ∧
      (BoundsCert.parse_float s = none ↔
        pyStrip s = "" ∨ pyFloat? (pyStrip s) = none)) ∧
    LambdaboundPlot.parse_lambda "0.000000" = none ∧
    LambdaboundCert.parse_float "0.000000" = none ∧
    BoundratioPlot.parse_float "0.000000" = some 0 ∧
    BoundsCert.parse_float "0.000000" = some 0 := by
  refine ⟨fun s => ⟨?_, ?_, ?_, ?_⟩, by decide, by decide, by decide, by decide⟩
  · unfold LambdaboundPlot.parse_lambda
    by_cases h : s = "" ∨ pyStrip s = "" ∨ s = "0.000000"
    · simp only [if_pos h]
      rcases h with h | h | h
      · subst h; simp [pyStrip_empty]
      · simp [h]
      · simp [h]
    · simp only [if_neg h]
      push_neg at h
      obtain ⟨h1, h2, h3⟩ := h
      simp [h1, h2, h3]
  · unfold LambdaboundCert.parse_float
    by_cases h : pyStrip s = "" ∨ pyStrip s = "0.000000"
    · simp only [if_pos h]
      tauto
    · simp only [if_neg h]
      push_neg at h
      obtain ⟨h1, h2⟩ := h
      simp [h1, h2]
  · unfold BoundratioPlot.parse_float
    by_cases h : s = "" ∨ pyStrip s = ""
    · simp only [if_pos h]
      rcases h with h | h
      · subst h; simp [pyStrip_empty]
      · simp [h]
    · simp only [if_neg h]
      push_neg at h
      obtain ⟨h1, h2⟩ := h
      simp [h1, h2]
  · unfold BoundsCert.parse_float
    by_cases h : pyStrip s = ""
    · simp [h]
    · simp [h]

/-- C7 witness: the characterizations applied at the concrete input
`"abc"`, an unparseable metric string, which all four parsers reject. -/
theorem c7_sentinel_rules_witness : BoundratioPlot.parse_float "abc" = none :=
  ((c7_sentinel_rules.1 "abc").2.2.1).mpr (Or.inr (by decide))

/-! ## C3: a bad sample index aborts a whole lambdabound file -/

/-- C3: in `summarizelambdabound.process_file` the call `int(n_val_str)`
(line 106) is not guarded by a row-level `try`, so one row whose metric is
defined but whose nonempty sample-index string fails integer parsing makes
the whole-file `except` (line 131) return `[]`: every other row of the file
is discarded, not just the failing row.  With the middle row removed the
remaining two rows summarize normally; the cert-side loader
`load_lambda_pairs` drops only the failing row, as the claim states. -/
theorem c3_row_parse_failure_bug :
    LambdaboundPlot.process_file
      [⟨"1.5", "10", ""⟩, ⟨"2.5", "x", ""⟩, ⟨"3.5", "12", ""⟩] 1 = [] ∧
    LambdaboundPlot.process_file
      [⟨"1.5", "10", ""⟩, ⟨"3.5", "12", ""⟩] 1
      = [⟨1, some 10, some (3/2), some 12, some (7/2)⟩] ∧
    LambdaboundCert.load_lambda_pairs
      ⟨true, true, [⟨"1.5", ["10"]⟩, ⟨"2.5", ["x"]⟩, ⟨"3.5", ["12"]⟩]⟩
      = [(10, 3/2), (12, 7/2)] := by
  refine ⟨by decide, by decide, by decide⟩

/-! ## C5: bracketed nearest selection -/

/-- The joint scan step is the product of its two components. -/
theorem bracketStep_eq (T : ℚ) (st : Option (ℤ × ℚ) × Option (ℤ × ℚ)) (p : ℤ × ℚ) :
    Cert.bracketStep T st p = (Cert.belowStep T st.1 p, Cert.aboveStep T st.2 p) := rfl

/-- The joint fold computes the two component folds. -/
theorem foldl_bracketStep (T : ℚ) :
    ∀ (l : List (ℤ × ℚ)) (b a : Option (ℤ × ℚ)),
      l.foldl (Cert.bracketStep T) (b, a) =
        (l.foldl (Cert.belowStep T) b, l.foldl (Cert.aboveStep T) a)
  | [], _, _ => rfl
  | p :: l, b, a => by
    rw [List.foldl_cons, List.foldl_cons, List.foldl_cons, bracketStep_eq]
    exact foldl_bracketStep T l _ _

/-- One step preserves the `below` invariant. -/
theorem belowInv_step (T : ℚ) (seen : List (ℤ × ℚ)) (acc : Option (ℤ × ℚ)) (p : ℤ × ℚ)
    (h : Cert.belowInv T seen acc) : Cert.belowInv T (seen ++ [p]) (Cert.belowStep T acc p) := by
  unfold Cert.belowStep
  by_cases hp : (p.1 : ℚ) ≤ T
  · rw [if_pos hp]
    match acc, h with
    | none, h =>
      refine ⟨by simp, hp, ?_⟩
      intro q hq _
      rcases List.mem_append.1 hq with hq | hq
      · exact absurd (by assumption) (h q hq)
      · simp at hq
        simp [hq]
    | some b, h =>
      show Cert.belowInv T (seen ++ [p]) (if b.1 < p.1 then some p else some b)
      by_cases hb : b.1 < p.1
      · rw [if_pos hb]
        refine ⟨by simp, hp, ?_⟩
        intro q hq hqT
        rcases List.mem_append.1 hq with hq | hq
        · exact le_of_lt (lt_of_le_of_lt (h.2.2 q hq hqT) hb)
        · simp at hq
          simp [hq]
      · rw [if_neg hb]
        refine ⟨List.mem_append_left _ h.1, h.2.1, ?_⟩
        intro q hq hqT
        rcases List.mem_append.1 hq with hq | hq
        · exact h.2.2 q hq hqT
        · simp at hq
          subst hq
          exact le_of_not_lt hb
  · rw [if_neg hp]
    match acc, h with
    | none, h =>
      intro q hq
      rcases List.mem_append.1 hq with hq | hq
      · exact h q hq
      · simp at hq
        subst hq
        exact hp
    | some b, h =>
      refine ⟨List.mem_append_left _ h.1, h.2.1, ?_⟩
      intro q hq hqT
      rcases List.mem_append.1 hq with hq | hq
      · exact h.2.2 q hq hqT
      · simp at hq
        subst hq
        exact absurd hqT hp

/-- One step preserves the `above` invariant. -/
theorem aboveInv_step (T : ℚ) (seen : List (ℤ × ℚ)) (acc : Option (ℤ × ℚ)) (p : ℤ × ℚ)
    (h : Cert.aboveInv T seen acc) : Cert.aboveInv T (seen ++ [p]) (Cert.aboveStep T acc p) := by
  unfold Cert.aboveStep
  by_cases hp : T ≤ (p.1 : ℚ)
  · rw [if_pos hp]
    match acc, h with
    | none, h =>
      refine ⟨by simp, hp, ?_⟩
      intro q hq _
      rcases List.mem_append.1 hq with hq | hq
      · exact absurd (by assumption) (h q hq)
      · simp at hq
        simp [hq]
    | some a, h =>
      show Cert.aboveInv T (seen ++ [p]) (if p.1 < a.1 then some p else some a)
      by_cases ha : p.1 < a.1
      · rw [if_pos ha]
        refine ⟨by simp, hp, ?_⟩
        intro q hq hqT
        rcases List.mem_append.1 hq with hq | hq
        · exact le_of_lt (lt_of_lt_of_le ha (h.2.2 q hq hqT))
        · simp at hq
          simp [hq]
      · rw [if_neg ha]
        refine ⟨List.mem_append_left _ h.1, h.2.1, ?_⟩
        intro q hq hqT
        rcases List.mem_append.1 hq with hq | hq
        · exact h.2.2 q hq hqT
        · simp at hq
          subst hq
          exact le_of_not_lt ha
  · rw [if_neg hp]
    match acc, h with
    | none, h =>
      intro q hq
      rcases List.mem_append.1 hq with hq | hq
      · exact h q hq
      · simp at hq
        subst hq
        exact hp
    | some a, h =>
      refine ⟨List.mem_append_left _ h.1, h.2.1, ?_⟩
      intro q hq hqT
      rcases List.mem_append.1 hq with hq | hq
      · exact h.2.2 q hq hqT
      · simp at hq
        subst hq
        exact absurd hqT hp

/-- The `below` fold keeps its invariant from any starting state. -/
theorem belowInv_foldl (T : ℚ) :
    ∀ (l seen : List (ℤ × ℚ)) (acc : Option (ℤ × ℚ)),
      Cert.belowInv T seen acc →
      Cert.belowInv T (seen ++ l) (l.foldl (Cert.belowStep T) acc)
  | [], seen, acc, h => by simpa using h
  | p :: l, seen, acc, h => by
    have h2 := belowInv_foldl T l (seen ++ [p]) _ (belowInv_step T seen acc p h)
    simpa using h2

/-- The `above` fold keeps its invariant from any starting state. -/
theorem aboveInv_foldl (T : ℚ) :
    ∀ (l seen : List (ℤ × ℚ)) (acc : Option (ℤ × ℚ)),
      Cert.aboveInv T seen acc →
      Cert.aboveInv T (seen ++ l) (l.foldl (Cert.aboveStep T) acc)
  | [], seen, acc, h => by simpa using h
  | p :: l, seen, acc, h => by
    have h2 := aboveInv_foldl T l (seen ++ [p]) _ (aboveInv_step T seen acc p h)
    simpa using h2

/-- The full scan satisfies the `below` invariant over the whole list. -/
theorem belowFold_spec (T : ℚ) (l : List (ℤ × ℚ)) :
    Cert.belowInv T l (l.foldl (Cert.belowStep T) none) := by
  have h := belowInv_foldl T l [] none (by simp [Cert.belowInv])
  simpa using h

/-- The full scan satisfies the `above` invariant over the whole list. -/
theorem aboveFold_spec (T : ℚ) (l : List (ℤ × ℚ)) :
    Cert.aboveInv T l (l.foldl (Cert.aboveStep T) none) := by
  have h := aboveInv_foldl T l [] none (by simp [Cert.aboveInv])
  simpa using h

/-- Pairs with no duplicate sample index are determined by their index. -/
theorem pair_eq_of_fst_eq {pairs : List (ℤ × ℚ)} (hnd : (pairs.map Prod.fst).Nodup)
    {p q : ℤ × ℚ} (hp : p ∈ pairs) (hq : q ∈ pairs) (h : p.1 = q.1) : p = q :=
  List.inj_on_of_nodup_map hnd hp hq h

/-- The selector yields `none` when the `below` scan found nothing. -/
theorem nearest_eval_noneB (pairs : List (ℤ × ℚ)) (T : ℚ)
    (hb : pairs.foldl (Cert.belowStep T) none = none) :
    Cert.nearest_lambda_with_bracket pairs T = none := by
  unfold Cert.nearest_lambda_with_bracket
  rw [foldl_bracketStep, hb]

/-- The selector yields `none` when the `above` scan found nothing. -/
theorem nearest_eval_noneA (pairs : List (ℤ × ℚ)) (T : ℚ)
    (ha : pairs.foldl (Cert.aboveStep T) none = none) :
    Cert.nearest_lambda_with_bracket pairs T = none := by
  unfold Cert.nearest_lambda_with_bracket
  rw [foldl_bracketStep, ha]
  rcases pairs.foldl (Cert.belowStep T) none with _ | b <;> rfl

/-- The selector's choice once both scans succeeded. -/
theorem nearest_eval_some (pairs : List (ℤ × ℚ)) (T : ℚ) (b a : ℤ × ℚ)
    (hb : pairs.foldl (Cert.belowStep T) none = some b)
    (ha : pairs.foldl (Cert.aboveStep T) none = some a) :
    Cert.nearest_lambda_with_bracket pairs T =
      (if |T - (b.1 : ℚ)| ≤ |(a.1 : ℚ) - T| then some b.2 else some a.2) := by
  unfold Cert.nearest_lambda_with_bracket
  rw [foldl_bracketStep, hb, ha]

/-- The selector returns `none` exactly when one side of the bracket is
missing. -/
theorem nearest_eq_none_iff (pairs : List (ℤ × ℚ)) (T : ℚ) :
    Cert.nearest_lambda_with_bracket pairs T = none ↔
      (∀ p ∈ pairs, ¬((p.1 : ℚ) ≤ T)) ∨ (∀ p ∈ pairs, ¬(T ≤ (p.1 : ℚ))) := by
  have hB := belowFold_spec T pairs
  have hA := aboveFold_spec T pairs
  rcases hBeq : pairs.foldl (Cert.belowStep T) none with _ | b
  · rw [hBeq] at hB
    simp only [Cert.belowInv] at hB
    rw [nearest_eval_noneB pairs T hBeq]
    exact ⟨fun _ => Or.inl hB, fun _ => rfl⟩
  · rw [hBeq] at hB
    simp only [Cert.belowInv] at hB
    rcases hAeq : pairs.foldl (Cert.aboveStep T) none with _ | a
    · rw [hAeq] at hA
      simp only [Cert.aboveInv] at hA
      rw [nearest_eval_noneA pairs T hAeq]
      exact ⟨fun _ => Or.inr hA, fun _ => rfl⟩
    · rw [hAeq] at hA
      simp only [Cert.aboveInv] at hA
      rw [nearest_eval_some pairs T b a hBeq hAeq]
      have hne : (if |T - (b.1 : ℚ)| ≤ |(a.1 : ℚ) - T| then some b.2 else some a.2) ≠
          none := by
        by_cases hle : |T - (b.1 : ℚ)| ≤ |(a.1 : ℚ) - T| <;> simp [hle]
      constructor
      · intro hc
        exact absurd hc hne
      · intro hc
        rcases hc with hc | hc
        · exact absurd hB.2.1 (hc b hB.1)
        · exact absurd hA.2.1 (hc a hA.1)

/-- With distinct indices and a bracket given by `b` (maximal at or below)
and `a` (minimal at or above), the selector returns the value prescribed by
the tie-favoring-below rule. -/
theorem nearest_of_bracket (pairs : List (ℤ × ℚ)) (T : ℚ)
    (hnd : (pairs.map Prod.fst).Nodup) (b : ℤ × ℚ) (hb : b ∈ pairs) (a : ℤ × ℚ)
    (ha : a ∈ pairs) (hbT : (b.1 : ℚ) ≤ T) (haT : T ≤ (a.1 : ℚ))
    (hbmax : ∀ p ∈ pairs, (p.1 : ℚ) ≤ T → p.1 ≤ b.1)
    (hamin : ∀ p ∈ pairs, T ≤ (p.1 : ℚ) → a.1 ≤ p.1) :
    Cert.nearest_lambda_with_bracket pairs T =
      some (if |T - (b.1 : ℚ)| ≤ |(a.1 : ℚ) - T| then b.2 else a.2) := by
  have hB := belowFold_spec T pairs
  have hA := aboveFold_spec T pairs
  rcases hBeq : pairs.foldl (Cert.belowStep T) none with _ | b'
  · rw [hBeq] at hB
    simp only [Cert.belowInv] at hB
    exact absurd hbT (hB b hb)
  rcases hAeq : pairs.foldl (Cert.aboveStep T) none with _ | a'
  · rw [hAeq] at hA
    simp only [Cert.aboveInv] at hA
    exact absurd haT (hA a ha)
  rw [hBeq] at hB
  rw [hAeq] at hA
  simp only [Cert.belowInv] at hB
  simp only [Cert.aboveInv] at hA
  have hbb : b' = b := by
    refine pair_eq_of_fst_eq hnd hB.1 hb (le_antisymm ?_ ?_)
    · exact hbmax b' hB.1 hB.2.1
    · exact hB.2.2 b hb hbT
  have haa : a' = a := by
    refine pair_eq_of_fst_eq hnd hA.1 ha (le_antisymm ?_ ?_)
    · exact hA.2.2 a ha haT
    · exact hamin a' hA.1 hA.2.1
  rw [nearest_eval_some pairs T b' a' hBeq hAeq, hbb, haa]
  by_cases hle : |T - (b.1 : ℚ)| ≤ |(a.1 : ℚ) - T|
  · rw [if_pos hle, if_pos hle]
  · rw [if_neg hle, if_neg hle]

/-- C5: the bracketed nearest selector returns `none` exactly when no
recorded index lies at or below the target or none lies at or above it;
with distinct indices, when a maximal pair `b` below and a minimal pair `a`
above both exist it returns `b`'s metric if `|T - b.1| ≤ |a.1 - T|` and
`a`'s metric otherwise, and an exact index match returns that pair's
metric. -/
theorem c5_bracketed_nearest (pairs : List (ℤ × ℚ)) (T : ℚ) :
    (Cert.nearest_lambda_with_bracket pairs T = none ↔
      (∀ p ∈ pairs, ¬((p.1 : ℚ) ≤ T)) ∨ (∀ p ∈ pairs, ¬(T ≤ (p.1 : ℚ)))) ∧
    ((pairs.map Prod.fst).Nodup →
      (∀ b ∈ pairs, ∀ a ∈ pairs, (b.1 : ℚ) ≤ T → T ≤ (a.1 : ℚ) →
        (∀ p ∈ pairs, (p.1 : ℚ) ≤ T → p.1 ≤ b.1) →
        (∀ p ∈ pairs, T ≤ (p.1 : ℚ) → a.1 ≤ p.1) →
        Cert.nearest_lambda_with_bracket pairs T =
          some (if |T - (b.1 : ℚ)| ≤ |(a.1 : ℚ) - T| then b.2 else a.2)) ∧
      (∀ p ∈ pairs, (p.1 : ℚ) = T →
        Cert.nearest_lambda_with_bracket pairs T = some p.2)) := by
  refine ⟨nearest_eq_none_iff pairs T, fun hnd => ⟨?_, ?_⟩⟩
  · intro b hb a ha hbT haT hbmax hamin
    exact nearest_of_bracket pairs T hnd b hb a ha hbT haT hbmax hamin
  · intro p hp hpT
    have h1 : (p.1 : ℚ) ≤ T := le_of_eq hpT
    have h2 : T ≤ (p.1 : ℚ) := ge_of_eq hpT
    have hmax : ∀ q ∈ pairs, (q.1 : ℚ) ≤ T → q.1 ≤ p.1 := by
      intro q hq hqT
      have hc : (q.1 : ℚ) ≤ (p.1 : ℚ) := le_trans hqT h2
      exact_mod_cast hc
    have hmin : ∀ q ∈ pairs, T ≤ (q.1 : ℚ) → p.1 ≤ q.1 := by
      intro q hq hqT
      have hc : (p.1 : ℚ) ≤ (q.1 : ℚ) := le_trans h1 hqT
      exact_mod_cast hc
    rw [nearest_of_bracket pairs T hnd p hp p hp h1 h2 hmax hmin]
    simp

/-- C5 witness: applied to the concrete series `[(1, 10), (3, 30)]` at the
exact-match target `T = 1` (the index list `[1, 3]` has no duplicates). -/
theorem c5_bracketed_nearest_witness :
    Cert.nearest_lambda_with_bracket [(1, 10), (3, 30)] 1 = some 10 := by
  have h := (c5_bracketed_nearest [(1, 10), (3, 30)] 1).2 (by decide)
  have h2 := h.2 (1, 10) (by decide) (by norm_num)
  simpa using h2

/-! ## C6: tail statistics -/

/-- C6: `tail_stats` yields no value for both components when fewer than
`count` pairs exist; otherwise the first component is the arithmetic mean
of the last `count` metric values in series order and the second is the
population standard deviation (the nonnegative real whose square is the
squared-deviation sum divided by `count`); for `count = 2` and values
`[3, 5]` it returns mean `4` and standard deviation `1`. -/
theorem c6_tail_stats (pairs : List (ℤ × ℚ)) (count : ℕ) (hK : 0 < count) :
    (pairs.length < count → Cert.tail_stats pairs count = (none, none)) ∧
    (count ≤ pairs.length →
      ∃ μ : ℚ, ∃ σ : ℝ,
        Cert.tail_stats pairs count = (some μ, some σ) ∧
        μ = (((pairs.map Prod.snd).reverse.take count).reverse.sum) / (count : ℚ) ∧
        0 ≤ σ ∧
        σ ^ 2 = ((((pairs.map Prod.snd).reverse.take count).reverse.map
            (fun x => (x - μ) ^ 2)).sum / (count : ℚ) : ℚ)) ∧
    Cert.tail_stats [(1, 3), (2, 5)] 2 = (some 4, some 1) := by
  refine ⟨?_, ?_, ?_⟩
  · intro hlt
    unfold Cert.tail_stats
    rw [if_pos hlt]
  · intro hge
    have htail : ((pairs.map Prod.snd).reverse.take count).reverse =
        (pairs.drop (pairs.length - count)).map Prod.snd := by
      have h1 := List.rtake_eq_reverse_take_reverse (pairs.map Prod.snd) count
      rw [← h1]
      unfold List.rtake
      rw [List.length_map, List.map_drop]
    have hnlt : ¬(pairs.length < count) := not_lt.mpr hge
    have hvar_nonneg :
        (0 : ℚ) ≤ (((pairs.drop (pairs.length - count)).map Prod.snd).map
          (fun x => (x - ((pairs.drop (pairs.length - count)).map Prod.snd).sum /
            (count : ℚ)) ^ 2)).sum / (count : ℚ) := by
      apply div_nonneg
      · apply List.sum_nonneg
        intro x hx
        simp only [List.mem_map] at hx
        obtain ⟨y, _, hy⟩ := hx
        rw [← hy]
        positivity
      · positivity
    refine ⟨((pairs.drop (pairs.length - count)).map Prod.snd).sum / (count : ℚ),
      Real.sqrt ((((pairs.drop (pairs.length - count)).map Prod.snd).map
        (fun x => (x - ((pairs.drop (pairs.length - count)).map Prod.snd).sum /
          (count : ℚ)) ^ 2)).sum / (count : ℚ) : ℚ),
      ?_, ?_, Real.sqrt_nonneg _, ?_⟩
    · unfold Cert.tail_stats
      rw [if_neg hnlt]
    · rw [htail]
    · rw [htail]
      rw [Real.sq_sqrt (by exact_mod_cast hvar_nonneg)]
  · norm_num [Cert.tail_stats, Real.sqrt_one]

/-- C6 witness: the insufficient-data case applied at a concrete one-pair
series with the default count 12, together with the concrete example from
the theorem. -/
theorem c6_tail_stats_witness :
    Cert.tail_stats [((5 : ℤ), (1 : ℚ))] 12 = (none, none) ∧
    Cert.tail_stats [(1, 3), (2, 5)] 2 = (some 4, some 1) :=
  ⟨(c6_tail_stats [((5 : ℤ), (1 : ℚ))] 12 (by norm_num)).1 (by norm_num),
   (c6_tail_stats [(1, 3), (2, 5)] 2 (by norm_num)).2.2⟩

/-! ## Backward window layout -/

/-- The loop result does not depend on the fuel, once sufficient. -/
theorem backStartsFuel_irrel (W : ℕ) (hW : 1 ≤ W) :
    ∀ (f₁ f₂ s : ℕ), s ≤ f₁ → s ≤ f₂ → backStartsFuel W f₁ s = backStartsFuel W f₂ s
  | f₁, f₂, 0, _, _ => by cases f₁ <;> cases f₂ <;> rfl
  | 0, _, s + 1, h₁, _ => by omega
  | _ + 1, 0, s + 1, _, h₂ => by omega
  | f₁ + 1, f₂ + 1, s + 1, h₁, h₂ => by
    show (s + 1) :: backStartsFuel W f₁ (s + 1 - W) =
      (s + 1) :: backStartsFuel W f₂ (s + 1 - W)
    rw [backStartsFuel_irrel W hW f₁ f₂ (s + 1 - W) (by omega) (by omega)]

/-- Loop starting at `0`: one window. -/
theorem backStarts_zero (W : ℕ) : backStarts W 0 = [0] := by
  unfold backStarts
  rfl

/-- Loop starting at a positive start: that start, then the loop from the
clamped previous start. -/
theorem backStarts_succ (W : ℕ) (hW : 1 ≤ W) (s : ℕ) :
    backStarts W (s + 1) = (s + 1) :: backStarts W (s + 1 - W) := by
  show backStartsFuel W (s + 1) (s + 1) = (s + 1) :: backStartsFuel W (s + 1 - W) (s + 1 - W)
  have h1 : backStartsFuel W (s + 1) (s + 1) = (s + 1) :: backStartsFuel W s (s + 1 - W) := rfl
  rw [h1, backStartsFuel_irrel W hW s (s + 1 - W) (s + 1 - W) (by omega) (by omega)]

/-- One backward step of the ceiling count. -/
theorem ceil_step (W : ℕ) (hW : 1 ≤ W) (s : ℕ) (hs : 0 < s) :
    (s + W - 1) / W = ((s - W) + W - 1) / W + 1 := by
  have h2 : s + W - 1 = (s - 1) + W := by omega
  rw [h2, Nat.add_div_right _ (show 0 < W by omega)]
  rcases le_or_lt W s with h | h
  · have h1 : s - W + W - 1 = s - 1 := by omega
    rw [h1]
  · have h1 : s - W = 0 := by omega
    rw [h1]
    have e1 : (s - 1) / W = 0 := Nat.div_eq_of_lt (by omega)
    have e2 : (0 + W - 1) / W = 0 := Nat.div_eq_of_lt (by omega)
    rw [e1, e2]

/-- The loop emits `⌈s/W⌉ + 1` starts. -/
theorem backStarts_length (W : ℕ) (hW : 1 ≤ W) :
    ∀ s : ℕ, (backStarts W s).length = (s + W - 1) / W + 1
  | 0 => by
    rw [backStarts_zero]
    have h0 : (0 + W - 1) / W = 0 := Nat.div_eq_of_lt (by omega)
    rw [h0]
    rfl
  | s + 1 => by
    rw [backStarts_succ W hW s, List.length_cons, backStarts_length W hW (s + 1 - W),
      ceil_step W hW (s + 1) (by omega)]
  termination_by s => s
  decreasing_by omega

/-- The `i`-th start emitted by the loop is `s - i·W` (and the loop is over
after `⌈s/W⌉ + 1` of them). -/
theorem backStarts_get (W : ℕ) (hW : 1 ≤ W) :
    ∀ s i : ℕ, (backStarts W s)[i]? =
      if i ≤ (s + W - 1) / W then some (s - i * W) else none
  | 0, i => by
    rw [backStarts_zero]
    have h0 : (0 + W - 1) / W = 0 := Nat.div_eq_of_lt (by omega)
    rw [h0]
    match i with
    | 0 => simp
    | i + 1 => simp
  | s + 1, i => by
    rw [backStarts_succ W hW s]
    match i with
    | 0 => simp
    | i + 1 =>
      rw [List.getElem?_cons_succ, backStarts_get W hW (s + 1 - W) i]
      have hc := ceil_step W hW (s + 1) (by omega)
      have hmul : (i + 1) * W = i * W + W := by ring
      by_cases hi : i ≤ ((s + 1 - W) + W - 1) / W
      · rw [if_pos hi, if_pos (by omega)]
        have he : s + 1 - (i + 1) * W = s + 1 - W - i * W := by omega
        rw [he]
      · rw [if_neg hi, if_neg (by omega)]
  termination_by s => s
  decreasing_by omega

/-- Every member of a window list is a contiguous slice of the input, hence
a sublist of it. -/
theorem window_sublist {α : Type} (rows : List α) (W : ℕ) (w : List α)
    (hw : w ∈ process_windows rows W) : w.Sublist rows := by
  unfold process_windows at hw
  by_cases h : rows.length = 0
  · rw [if_pos h] at hw
    cases hw
  · rw [if_neg h] at hw
    obtain ⟨s, _, rfl⟩ := List.mem_map.1 hw
    exact ((rows.drop s).take_sublist W).trans (rows.drop_sublist s)

/-! ## First-seen extremum machinery -/

/-- A first-seen minimum is a member of the list. -/
theorem isFirstMin_mem (l : List (ℤ × ℚ)) (p : ℤ × ℚ) (h : isFirstMin l p) : p ∈ l := by
  obtain ⟨_, i, hi, _⟩ := h
  exact List.getElem?_mem hi

/-- A first-seen maximum is a member of the list. -/
theorem isFirstMax_mem (l : List (ℤ × ℚ)) (p : ℤ × ℚ) (h : isFirstMax l p) : p ∈ l := by
  obtain ⟨_, i, hi, _⟩ := h
  exact List.getElem?_mem hi

/-- Folding the first-seen-minimum step from `some p` yields the first-seen
minimum of `p :: l`. -/
theorem minFold_some : ∀ (l : List (ℤ × ℚ)) (p : ℤ × ℚ),
    ∃ r, l.foldl minStep (some p) = some r ∧ isFirstMin (p :: l) r
  | [], p => by
    refine ⟨p, rfl, ?_, 0, rfl, ?_⟩
    · intro q hq
      rcases List.mem_singleton.1 hq with rfl
      exact le_refl _
    · intro j hj
      omega
  | q :: l, p => by
    rw [List.foldl_cons]
    by_cases hq : q.2 < p.2
    · have hstep : minStep (some p) q = some q := by
        show (if q.2 < p.2 then some q else some p) = some q
        rw [if_pos hq]
      rw [hstep]
      obtain ⟨r, hr, hub, i, hi, hearlier⟩ := minFold_some l q
      have hrq : r.2 < p.2 := lt_of_le_of_lt (hub q (List.mem_cons_self q l)) hq
      refine ⟨r, hr, ?_, i + 1, ?_, ?_⟩
      · intro x hx
        rcases List.mem_cons.1 hx with rfl | hx
        · exact le_of_lt hrq
        · exact hub x hx
      · rw [List.getElem?_cons_succ]
        exact hi
      · intro j hj x hx
        match j with
        | 0 =>
          rw [List.getElem?_cons_zero] at hx
          cases hx
          exact hrq
        | j + 1 =>
          rw [List.getElem?_cons_succ] at hx
          exact hearlier j (by omega) x hx
    · have hstep : minStep (some p) q = some p := by
        show (if q.2 < p.2 then some q else some p) = some p
        rw [if_neg hq]
      rw [hstep]
      obtain ⟨r, hr, hub, i, hi, hearlier⟩ := minFold_some l p
      have hpq : p.2 ≤ q.2 := le_of_not_lt hq
      have hub' : ∀ x ∈ p :: q :: l, r.2 ≤ x.2 := by
        intro x hx
        rcases List.mem_cons.1 hx with rfl | hx
        · exact hub x (List.mem_cons_self x l)
        rcases List.mem_cons.1 hx with rfl | hx
        · exact le_trans (hub p (List.mem_cons_self p l)) hpq
        · exact hub x (List.mem_cons_of_mem p hx)
      cases i with
      | zero =>
        rw [List.getElem?_cons_zero] at hi
        cases hi
        refine ⟨p, hr, hub', 0, rfl, ?_⟩
        intro j hj
        omega
      | succ i =>
        rw [List.getElem?_cons_succ] at hi
        have h0 : r.2 < p.2 := hearlier 0 (by omega) p List.getElem?_cons_zero
        refine ⟨r, hr, hub', i + 2, ?_, ?_⟩
        · rw [List.getElem?_cons_succ, List.getElem?_cons_succ]
          exact hi
        · intro j hj x hx
          match j, hx with
          | 0, hx =>
            rw [List.getElem?_cons_zero] at hx
            cases hx
            exact h0
          | 1, hx =>
            rw [List.getElem?_cons_succ, List.getElem?_cons_zero] at hx
            cases hx
            exact lt_of_lt_of_le h0 hpq
          | j + 2, hx =>
            rw [List.getElem?_cons_succ, List.getElem?_cons_succ] at hx
            refine hearlier (j + 1) (by omega) x ?_
            rw [List.getElem?_cons_succ]
            exact hx

/-- Folding the first-seen-maximum step from `some p` yields the first-seen
maximum of `p :: l`. -/
theorem maxFold_some : ∀ (l : List (ℤ × ℚ)) (p : ℤ × ℚ),
    ∃ r, l.foldl maxStep (some p) = some r ∧ isFirstMax (p :: l) r
  | [], p => by
    refine ⟨p, rfl, ?_, 0, rfl, ?_⟩
    · intro q hq
      rcases List.mem_singleton.1 hq with rfl
      exact le_refl _
    · intro j hj
      omega
  | q :: l, p => by
    rw [List.foldl_cons]
    by_cases hq : p.2 < q.2
    · have hstep : maxStep (some p) q = some q := by
        show (if p.2 < q.2 then some q else some p) = some q
        rw [if_pos hq]
      rw [hstep]
      obtain ⟨r, hr, hub, i, hi, hearlier⟩ := maxFold_some l q
      have hrq : p.2 < r.2 := lt_of_lt_of_le hq (hub q (List.mem_cons_self q l))
      refine ⟨r, hr, ?_, i + 1, ?_, ?_⟩
      · intro x hx
        rcases List.mem_cons.1 hx with rfl | hx
        · exact le_of_lt hrq
        · exact hub x hx
      · rw [List.getElem?_cons_succ]
        exact hi
      · intro j hj x hx
        match j with
        | 0 =>
          rw [List.getElem?_cons_zero] at hx
          cases hx
          exact hrq
        | j + 1 =>
          rw [List.getElem?_cons_succ] at hx
          exact hearlier j (by omega) x hx
    · have hstep : maxStep (some p) q = some p := by
        show (if p.2 < q.2 then some q else some p) = some p
        rw [if_neg hq]
      rw [hstep]
      obtain ⟨r, hr, hub, i, hi, hearlier⟩ := maxFold_some l p
      have hpq : q.2 ≤ p.2 := le_of_not_lt hq
      have hub' : ∀ x ∈ p :: q :: l, x.2 ≤ r.2 := by
        intro x hx
        rcases List.mem_cons.1 hx with rfl | hx
        · exact hub x (List.mem_cons_self x l)
        rcases List.mem_cons.1 hx with rfl | hx
        · exact le_trans hpq (hub p (List.mem_cons_self p l))
        · exact hub x (List.mem_cons_of_mem p hx)
      cases i with
      | zero =>
        rw [List.getElem?_cons_zero] at hi
        cases hi
        refine ⟨p, hr, hub', 0, rfl, ?_⟩
        intro j hj
        omega
      | succ i =>
        rw [List.getElem?_cons_succ] at hi
        have h0 : p.2 < r.2 := hearlier 0 (by omega) p List.getElem?_cons_zero
        refine ⟨r, hr, hub', i + 2, ?_, ?_⟩
        · rw [List.getElem?_cons_succ, List.getElem?_cons_succ]
          exact hi
        · intro j hj x hx
          match j, hx with
          | 0, hx =>
            rw [List.getElem?_cons_zero] at hx
            cases hx
            exact h0
          | 1, hx =>
            rw [List.getElem?_cons_succ, List.getElem?_cons_zero] at hx
            cases hx
            exact lt_of_le_of_lt hpq h0
          | j + 2, hx =>
            rw [List.getElem?_cons_succ, List.getElem?_cons_succ] at hx
            refine hearlier (j + 1) (by omega) x ?_
            rw [List.getElem?_cons_succ]
            exact hx

/-- A nonempty pair list has a first-seen minimum computed by the fold. -/
theorem minFold_spec (l : List (ℤ × ℚ)) (h : l ≠ []) :
    ∃ r, l.foldl minStep none = some r ∧ isFirstMin l r := by
  match l with
  | [] => exact absurd rfl h
  | p :: l => exact minFold_some l p

/-- A nonempty pair list has a first-seen maximum computed by the fold. -/
theorem maxFold_spec (l : List (ℤ × ℚ)) (h : l ≠ []) :
    ∃ r, l.foldl maxStep none = some r ∧ isFirstMax l r := by
  match l with
  | [] => exact absurd rfl h
  | p :: l => exact maxFold_some l p

/-- One accumulator step is the product of the two first-seen steps. -/
theorem accPair_accOf (om ox : Option (ℤ × ℚ)) (p : ℤ × ℚ) :
    accPair (accOf om ox) p = accOf (minStep om p) (maxStep ox p) := by
  cases om with
  | none =>
    cases ox with
    | none => rfl
    | some x =>
      by_cases hx : x.2 < p.2 <;> simp [accPair, accOf, minStep, maxStep, hx]
  | some m =>
    cases ox with
    | none =>
      by_cases hm : p.2 < m.2 <;> simp [accPair, accOf, minStep, maxStep, hm]
    | some x =>
      by_cases hm : p.2 < m.2 <;> by_cases hx : x.2 < p.2 <;>
        simp [accPair, accOf, minStep, maxStep, hm, hx]

/-- The accumulator fold is the product of the two first-seen folds. -/
theorem foldl_accPair_accOf : ∀ (l : List (ℤ × ℚ)) (om ox : Option (ℤ × ℚ)),
    l.foldl accPair (accOf om ox) = accOf (l.foldl minStep om) (l.foldl maxStep ox)
  | [], _, _ => rfl
  | p :: l, om, ox => by
    rw [List.foldl_cons, List.foldl_cons, List.foldl_cons, accPair_accOf]
    exact foldl_accPair_accOf l _ _

/-! ## Per-script batch characterizations -/

/-- The boundratio row fold is the pair fold over the valid pairs. -/
theorem br_foldl_stepRow : ∀ (batch : List BoundratioPlot.Row) (acc : BatchAcc),
    batch.foldl BoundratioPlot.stepRow acc =
      (BoundratioPlot.validPairs batch).foldl accPair acc
  | [], _ => rfl
  | r :: bs, acc => by
    rw [List.foldl_cons]
    unfold BoundratioPlot.validPairs
    rw [List.filterMap_cons]
    cases h : BoundratioPlot.rowPair? r with
    | none =>
      have hs : BoundratioPlot.stepRow acc r = acc := by
        unfold BoundratioPlot.stepRow
        rw [h]
      rw [hs]
      exact br_foldl_stepRow bs acc
    | some p =>
      have hs : BoundratioPlot.stepRow acc r = accPair acc p := by
        unfold BoundratioPlot.stepRow
        rw [h]
      rw [hs, List.foldl_cons]
      exact br_foldl_stepRow bs (accPair acc p)

/-- A boundratio batch that emits a summary row emits the first-seen
extrema of its valid pairs, with the given alpha. -/
theorem br_process_batch_some (alpha : ℚ) (batch : List BoundratioPlot.Row)
    (s : SummaryRow) (h : BoundratioPlot.process_batch alpha batch = some s) :
    ∃ rm rx, isFirstMin (BoundratioPlot.validPairs batch) rm ∧
      isFirstMax (BoundratioPlot.validPairs batch) rx ∧
      s = ⟨alpha, some rm.1, some rm.2, some rx.1, some rx.2⟩ := by
  unfold BoundratioPlot.process_batch at h
  rw [br_foldl_stepRow] at h
  have hinit : initAcc = accOf none none := rfl
  rw [hinit, foldl_accPair_accOf] at h
  rcases hvp : BoundratioPlot.validPairs batch with _ | ⟨p, l⟩
  · rw [hvp] at h
    simp [accOf] at h
  · rw [hvp] at h
    obtain ⟨rm, hrm, hminfirst⟩ := minFold_spec (p :: l) (by simp)
    obtain ⟨rx, hrx, hmaxfirst⟩ := maxFold_spec (p :: l) (by simp)
    rw [hrm, hrx] at h
    simp only [accOf, Option.map_some, Option.isSome_some, Bool.true_or, if_pos] at h
    refine ⟨rm, rx, hminfirst, hmaxfirst, ?_⟩
    cases h
    rfl

/-- The lambdabound row fold, when no exception occurs, is the pair fold
over the valid pairs. -/
theorem lb_foldlM_stepRow : ∀ (batch : List LambdaboundPlot.Row) (acc acc' : BatchAcc),
    batch.foldlM LambdaboundPlot.stepRow acc = Except.ok acc' →
    acc' = (LambdaboundPlot.validPairs batch).foldl accPair acc
  | [], acc, acc', h => by
    rw [List.foldlM_nil] at h
    cases h
    rfl
  | r :: bs, acc, acc', h => by
    rw [List.foldlM_cons] at h
    unfold LambdaboundPlot.validPairs
    rw [List.filterMap_cons]
    cases hr : LambdaboundPlot.rowPairE r with
    | error e =>
      have hs : LambdaboundPlot.stepRow acc r = Except.error e := by
        unfold LambdaboundPlot.stepRow
        rw [hr]
      rw [hs] at h
      cases h
    | ok o =>
      cases o with
      | none =>
        have hs : LambdaboundPlot.stepRow acc r = Except.ok acc := by
          unfold LambdaboundPlot.stepRow
          rw [hr]
        rw [hs] at h
        exact lb_foldlM_stepRow bs acc acc' h
      | some p =>
        have hs : LambdaboundPlot.stepRow acc r = Except.ok (accPair acc p) := by
          unfold LambdaboundPlot.stepRow
          rw [hr]
        rw [hs] at h
        exact lb_foldlM_stepRow bs (accPair acc p) acc' h

/-- A lambdabound batch that emits a summary row emits the first-seen
extrema of its valid pairs, with the given alpha. -/
theorem lb_process_batch_some (alpha : ℚ) (batch : List LambdaboundPlot.Row)
    (s : SummaryRow) (h : LambdaboundPlot.process_batch alpha batch = Except.ok (some s)) :
    ∃ rm rx, isFirstMin (LambdaboundPlot.validPairs batch) rm ∧
      isFirstMax (LambdaboundPlot.validPairs batch) rx ∧
      s = ⟨alpha, some rm.1, some rm.2, some rx.1, some rx.2⟩ := by
  unfold LambdaboundPlot.process_batch at h
  cases hacc : batch.foldlM LambdaboundPlot.stepRow initAcc with
  | error e =>
    rw [hacc] at h
    cases h
  | ok acc =>
    rw [hacc] at h
    have heq := lb_foldlM_stepRow batch initAcc acc hacc
    have hinit : initAcc = accOf none none := rfl
    rw [hinit, foldl_accPair_accOf] at heq
    rcases hvp : LambdaboundPlot.validPairs batch with _ | ⟨p, l⟩
    · rw [hvp] at heq
      subst heq
      simp [accOf] at h
    · rw [hvp] at heq
      obtain ⟨rm, hrm, hminfirst⟩ := minFold_spec (p :: l) (by simp)
      obtain ⟨rx, hrx, hmaxfirst⟩ := maxFold_spec (p :: l) (by simp)
      rw [hrm, hrx] at heq
      subst heq
      simp only [accOf, Option.map_some, Option.isSome_some, Bool.true_or, if_pos] at h
      refine ⟨rm, rx, hminfirst, hmaxfirst, ?_⟩
      cases h
      rfl

/-- Membership in the accumulated lambdabound batch results comes from one
batch that emitted it. -/
theorem lb_mem_process_batches : ∀ (alpha : ℚ) (bs : List (List LambdaboundPlot.Row))
    (res : List SummaryRow),
    LambdaboundPlot.process_batches alpha bs = Except.ok res →
    ∀ r ∈ res, ∃ b ∈ bs, LambdaboundPlot.process_batch alpha b = Except.ok (some r)
  | _, [], res, h => by
    cases h
    intro r hr
    cases hr
  | alpha, b :: bs, res, h => by
    unfold LambdaboundPlot.process_batches at h
    cases h1 : LambdaboundPlot.process_batch alpha b with
    | error e =>
      rw [h1] at h
      cases h
    | ok o =>
      rw [h1] at h
      cases h2 : LambdaboundPlot.process_batches alpha bs with
      | error e =>
        rw [h2] at h
        cases h
      | ok rest =>
        rw [h2] at h
        intro r hr
        cases o with
        | none =>
          cases h
          obtain ⟨w, hw, hwb⟩ := lb_mem_process_batches alpha bs rest h2 r hr
          exact ⟨w, List.mem_cons_of_mem b hw, hwb⟩
        | some srow =>
          cases h
          rcases List.mem_cons.1 hr with rfl | hr
          · exact ⟨b, List.mem_cons_self b bs, h1⟩
          · obtain ⟨w, hw, hwb⟩ := lb_mem_process_batches alpha bs rest h2 r hr
            exact ⟨w, List.mem_cons_of_mem b hw, hwb⟩

/-! ## C9: invariants of emitted summary rows -/

/-- C9: every summary row emitted by either plotting summarizer has both
extremum fields defined simultaneously, min ≤ max, both sample indices
taken from rows of the file whose metric parsed as defined, and each
recorded index belongs to the first row of the window attaining the
extremum (an equal later value never replaces it). -/
theorem c9_extrema_invariants :
    (∀ (alpha : ℚ) (W : ℕ) (rows : List BoundratioPlot.Row) (r : SummaryRow),
      r ∈ BoundratioPlot.process_file rows alpha W →
      ∃ batch, batch.Sublist rows ∧
        ∃ nmin : ℤ, ∃ vmin : ℚ, ∃ nmax : ℤ, ∃ vmax : ℚ,
          r.min_lambda = some vmin ∧ r.n_min_lambda = some nmin ∧
          r.max_lambda = some vmax ∧ r.n_max_lambda = some nmax ∧
          vmin ≤ vmax ∧
          isFirstMin (BoundratioPlot.validPairs batch) (nmin, vmin) ∧
          isFirstMax (BoundratioPlot.validPairs batch) (nmax, vmax) ∧
          (∃ row ∈ rows, BoundratioPlot.rowPair? row = some (nmin, vmin)) ∧
          (∃ row ∈ rows, BoundratioPlot.rowPair? row = some (nmax, vmax))) ∧
    (∀ (alpha : ℚ) (rows : List LambdaboundPlot.Row) (r : SummaryRow),
      r ∈ LambdaboundPlot.process_file rows alpha →
      ∃ batch, batch.Sublist rows ∧
        ∃ nmin : ℤ, ∃ vmin : ℚ, ∃ nmax : ℤ, ∃ vmax : ℚ,
          r.min_lambda = some vmin ∧ r.n_min_lambda = some nmin ∧
          r.max_lambda = some vmax ∧ r.n_max_lambda = some nmax ∧
          vmin ≤ vmax ∧
          isFirstMin (LambdaboundPlot.validPairs batch) (nmin, vmin) ∧
          isFirstMax (LambdaboundPlot.validPairs batch) (nmax, vmax) ∧
          (∃ row ∈ rows, LambdaboundPlot.rowPairE row = Except.ok (some (nmin, vmin))) ∧
          (∃ row ∈ rows, LambdaboundPlot.rowPairE row = Except.ok (some (nmax, vmax)))) := by
  constructor
  · intro alpha W rows r hr
    unfold BoundratioPlot.process_file at hr
    by_cases h0 : rows.length = 0
    · rw [if_pos h0] at hr
      cases hr
    rw [if_neg h0] at hr
    obtain ⟨batch, hbatch, hpb⟩ := List.mem_filterMap.1 hr
    have hsub := window_sublist rows W batch hbatch
    obtain ⟨rm, rx, hmin, hmax, rfl⟩ := br_process_batch_some alpha batch r hpb
    have hrmmem := isFirstMin_mem _ _ hmin
    have hrxmem := isFirstMax_mem _ _ hmax
    have hminmax : rm.2 ≤ rx.2 := hmin.1 rx hrxmem
    have hetam : ((rm.1, rm.2) : ℤ × ℚ) = rm := rfl
    have hetax : ((rx.1, rx.2) : ℤ × ℚ) = rx := rfl
    obtain ⟨rowm, hrowm, hrowmp⟩ := List.mem_filterMap.1 hrmmem
    obtain ⟨rowx, hrowx, hrowxp⟩ := List.mem_filterMap.1 hrxmem
    refine ⟨batch, hsub, rm.1, rm.2, rx.1, rx.2, rfl, rfl, rfl, rfl, hminmax,
      by rw [hetam]; exact hmin, by rw [hetax]; exact hmax,
      ⟨rowm, hsub.subset hrowm, by rw [hetam]; exact hrowmp⟩,
      ⟨rowx, hsub.subset hrowx, by rw [hetax]; exact hrowxp⟩⟩
  · intro alpha rows r hr
    unfold LambdaboundPlot.process_file at hr
    by_cases h0 : rows.length = 0
    · rw [if_pos h0] at hr
      cases hr
    rw [if_neg h0] at hr
    cases hres : LambdaboundPlot.process_batches alpha (process_windows rows 12) with
    | error e =>
      rw [hres] at hr
      cases hr
    | ok res =>
      rw [hres] at hr
      obtain ⟨batch, hbatch, hpb⟩ :=
        lb_mem_process_batches alpha (process_windows rows 12) res hres r hr
      have hsub := window_sublist rows 12 batch hbatch
      obtain ⟨rm, rx, hmin, hmax, rfl⟩ := lb_process_batch_some alpha batch r hpb
      have hrmmem := isFirstMin_mem _ _ hmin
      have hrxmem := isFirstMax_mem _ _ hmax
      have hminmax : rm.2 ≤ rx.2 := hmin.1 rx hrxmem
      have hetam : ((rm.1, rm.2) : ℤ × ℚ) = rm := rfl
      have hetax : ((rx.1, rx.2) : ℤ × ℚ) = rx := rfl
      obtain ⟨rowm, hrowm, hrowmp⟩ := List.mem_filterMap.1 hrmmem
      obtain ⟨rowx, hrowx, hrowxp⟩ := List.mem_filterMap.1 hrxmem
      have hrowm' : LambdaboundPlot.rowPairE rowm = Except.ok (some rm) := by
        cases he : LambdaboundPlot.rowPairE rowm with
        | error e =>
          rw [he] at hrowmp
          cases hrowmp
        | ok o =>
          rw [he] at hrowmp
          cases hrowmp
          rfl
      have hrowx' : LambdaboundPlot.rowPairE rowx = Except.ok (some rx) := by
        cases he : LambdaboundPlot.rowPairE rowx with
        | error e =>
          rw [he] at hrowxp
          cases hrowxp
        | ok o =>
          rw [he] at hrowxp
          cases hrowxp
          rfl
      refine ⟨batch, hsub, rm.1, rm.2, rx.1, rx.2, rfl, rfl, rfl, rfl, hminmax,
        by rw [hetam]; exact hmin, by rw [hetax]; exact hmax,
        ⟨rowm, hsub.subset hrowm, by rw [hetam]; exact hrowm'⟩,
        ⟨rowx, hsub.subset hrowx, by rw [hetax]; exact hrowx'⟩⟩

/-- C9 witness: the boundratio invariants applied to the concrete one-row
file `[(n = "10", lambda = "1.5")]` with `alpha = 1` and the default batch
size 12, whose single emitted row is
`⟨1, some 10, some (3/2), some 10, some (3/2)⟩`. -/
theorem c9_extrema_invariants_witness :
    ∃ batch, batch.Sublist [(⟨"10", "1.5"⟩ : BoundratioPlot.Row)] ∧
      ∃ nmin : ℤ, ∃ vmin : ℚ, ∃ nmax : ℤ, ∃ vmax : ℚ,
        (⟨1, some 10, some (3/2), some 10, some (3/2)⟩ : SummaryRow).min_lambda
          = some vmin ∧
        (⟨1, some 10, some (3/2), some 10, some (3/2)⟩ : SummaryRow).n_min_lambda
          = some nmin ∧
        (⟨1, some 10, some (3/2), some 10, some (3/2)⟩ : SummaryRow).max_lambda
          = some vmax ∧
        (⟨1, some 10, some (3/2), some 10, some (3/2)⟩ : SummaryRow).n_max_lambda
          = some nmax ∧
        vmin ≤ vmax ∧
        isFirstMin (BoundratioPlot.validPairs batch) (nmin, vmin) ∧
        isFirstMax (BoundratioPlot.validPairs batch) (nmax, vmax) ∧
        (∃ row ∈ [(⟨"10", "1.5"⟩ : BoundratioPlot.Row)],
          BoundratioPlot.rowPair? row = some (nmin, vmin)) ∧
        (∃ row ∈ [(⟨"10", "1.5"⟩ : BoundratioPlot.Row)],
          BoundratioPlot.rowPair? row = some (nmax, vmax)) :=
  c9_extrema_invariants.1 1 12 [⟨"10", "1.5"⟩]
    ⟨1, some 10, some (3/2), some 10, some (3/2)⟩ (by decide)

/-! ## C1: the backward window layout -/

/-- Every start emitted by the loop is at most the initial start. -/
theorem backStarts_le (W : ℕ) (hW : 1 ≤ W) : ∀ s : ℕ, ∀ x ∈ backStarts W s, x ≤ s
  | 0 => by
    rw [backStarts_zero]
    intro x hx
    rcases List.mem_singleton.1 hx with rfl
    exact le_refl 0
  | s + 1 => by
    rw [backStarts_succ W hW s]
    intro x hx
    rcases List.mem_cons.1 hx with rfl | hx
    · exact le_refl _
    · have := backStarts_le W hW (s + 1 - W) x hx
      omega
  termination_by s => s
  decreasing_by omega

/-- When the window size divides the length, the reversed windows
concatenate back to the original list. -/
theorem backStarts_chunks {α : Type} (W : ℕ) (hW : 1 ≤ W) :
    ∀ (n : ℕ) (rows : List α), rows.length = n → rows.length ≠ 0 → W ∣ rows.length →
      (((backStarts W (rows.length - W)).map
        (fun s => (rows.drop s).take W)).reverse).flatten = rows := by
  intro n
  induction n using Nat.strong_induction_on with
  | _ n ih =>
    intro rows hn hne hdvd
    have hWL : W ≤ rows.length := Nat.le_of_dvd (by omega) hdvd
    rcases eq_or_lt_of_le hWL with heq | hlt
    · have h0 : rows.length - W = 0 := by omega
      rw [h0, backStarts_zero]
      simp only [List.map_cons, List.map_nil, List.reverse_cons, List.reverse_nil,
        List.nil_append, List.flatten]
      rw [List.drop_zero, List.take_of_length_le (by omega)]
      simp
    · have h1 : rows.length - W ≠ 0 := by omega
      obtain ⟨s, hs⟩ := Nat.exists_eq_succ_of_ne_zero h1
      have hWW : W ∣ rows.length - W := (Nat.dvd_sub' hdvd dvd_rfl)
      have hW2 : W ≤ rows.length - W := by
        rcases hWW with ⟨k, hk⟩
        rcases Nat.eq_zero_or_pos k with rfl | hkpos
        · omega
        · calc W = W * 1 := by ring
            _ ≤ W * k := by exact Nat.mul_le_mul_left W hkpos
            _ = rows.length - W := hk.symm
      rw [hs, backStarts_succ W hW s]
      set rows' := rows.take (rows.length - W) with hrows'
      have hlen' : rows'.length = rows.length - W := by
        rw [hrows', List.length_take]
        omega
      have hstep : ∀ x ∈ backStarts W (s + 1 - W),
          (rows.drop x).take W = (rows'.drop x).take W := by
        intro x hx
        have hxle : x ≤ s + 1 - W := backStarts_le W hW (s + 1 - W) x hx
        rw [hrows', List.drop_take]
        rw [List.take_take]
        have hmin : min W (rows.length - W - x) = W := by omega
        rw [hmin]
      have hrec := ih (rows.length - W) (by omega) rows' hlen' (by omega)
        (by rw [hlen']; exact hWW)
      rw [hlen'] at hrec
      have hs' : rows.length - W - W = s + 1 - W := by omega
      rw [hs'] at hrec
      have hmapeq : (backStarts W (s + 1 - W)).map (fun x => (rows.drop x).take W) =
          (backStarts W (s + 1 - W)).map (fun x => (rows'.drop x).take W) :=
        List.map_congr_left hstep
      rw [List.map_cons, List.reverse_cons, List.flatten_append, hmapeq, hrec]
      have hlast : (rows.drop (s + 1)).take W = rows.drop (s + 1) := by
        apply List.take_of_length_le
        rw [List.length_drop]
        omega
      rw [hlast]
      simp only [List.flatten, List.append_nil]
      rw [hrows']
      have : s + 1 = rows.length - W := hs.symm
      rw [this]
      exact List.take_append_drop _ rows

/-- C1 counterexample: for the three-record series `[10, 20, 30]` and
window size `2` the code lays out the windows `[[20, 30], [10, 20]]`: the
record at position 1 is covered twice, the reversed windows do not
concatenate back to the series, and no window (in particular not the
earliest) is shorter than `W` even though `L mod W = 1 ≠ 0`.  The claimed
exactly-once partition with a shorter earliest window would have been
`[[20, 30], [10]]`. -/
theorem c1_backward_windows_counterexample :
    process_windows ([10, 20, 30] : List ℕ) 2 = [[20, 30], [10, 20]] ∧
    (process_windows ([10, 20, 30] : List ℕ) 2).reverse.flatten ≠ [10, 20, 30] ∧
    (process_windows ([10, 20, 30] : List ℕ) 2).map List.length = [2, 2] := by
  refine ⟨by decide, by decide, by decide⟩

/-- C1 amended: `process_file` lays out `⌈L/W⌉` windows, most recent
first; window `i` is the slice of width `W` starting at `max(0, L-(i+1)·W)`
(so the earliest window is clamped to start `0` and may overlap its
successor rather than be shorter); the reversed windows partition the
series exactly when `L ≤ W` or `W` divides `L`; and each emitted window
summary records extrema equal to a brute-force scan of the window's valid
pairs. -/
theorem c1_backward_windows_amended :
    (∀ (α : Type) (rows : List α) (W : ℕ), 1 ≤ W → rows ≠ [] →
      ((process_windows rows W).length = (rows.length + W - 1) / W ∧
       (∀ i : ℕ, i < (rows.length + W - 1) / W →
         (process_windows rows W)[i]? =
           some ((rows.drop (rows.length - (i + 1) * W)).take W)) ∧
       ((rows.length ≤ W ∨ W ∣ rows.length) →
         (process_windows rows W).reverse.flatten = rows))) ∧
    (∀ (alpha : ℚ) (batch : List BoundratioPlot.Row) (s : SummaryRow),
      BoundratioPlot.process_batch alpha batch = some s →
      (∃ p ∈ BoundratioPlot.validPairs batch,
        s.min_lambda = some p.2 ∧ ∀ q ∈ BoundratioPlot.validPairs batch, p.2 ≤ q.2) ∧
      (∃ p ∈ BoundratioPlot.validPairs batch,
        s.max_lambda = some p.2 ∧ ∀ q ∈ BoundratioPlot.validPairs batch, q.2 ≤ p.2)) := by
  constructor
  · intro α rows W hW hne
    have hL : rows.length ≠ 0 := fun h => hne (List.length_eq_zero.1 h)
    have hpw : process_windows rows W =
        (backStarts W (rows.length - W)).map (fun s => (rows.drop s).take W) := by
      unfold process_windows
      rw [if_neg hL]
    have harith : ((rows.length - W) + W - 1) / W + 1 = (rows.length + W - 1) / W := by
      have h1 : rows.length + W - 1 = (rows.length - 1) + W := by omega
      rw [h1, Nat.add_div_right _ (show 0 < W by omega)]
      rcases le_or_lt W rows.length with h | h
      · have h2 : (rows.length - W) + W - 1 = rows.length - 1 := by omega
        rw [h2]
      · have h2 : rows.length - W = 0 := by omega
        rw [h2]
        have e1 : (rows.length - 1) / W = 0 := Nat.div_eq_of_lt (by omega)
        have e2 : (0 + W - 1) / W = 0 := Nat.div_eq_of_lt (by omega)
        rw [e1, e2]
    refine ⟨?_, ?_, ?_⟩
    · rw [hpw, List.length_map, backStarts_length W hW, harith]
    · intro i hi
      rw [hpw, List.getElem?_map, backStarts_get W hW]
      rw [if_pos (by omega)]
      have hmul : (i + 1) * W = i * W + W := by ring
      have he : rows.length - W - i * W = rows.length - (i + 1) * W := by omega
      rw [he]
      rfl
    · intro hcase
      rcases hcase with hle | hdvd
      · have h2 : rows.length - W = 0 := by omega
        rw [hpw, h2, backStarts_zero]
        simp only [List.map_cons, List.map_nil, List.reverse_cons, List.reverse_nil,
          List.nil_append, List.flatten]
        rw [List.drop_zero, List.take_of_length_le hle]
        simp
      · rw [hpw]
        exact backStarts_chunks W hW rows.length rows rfl hL hdvd
  · intro alpha batch s h
    obtain ⟨rm, rx, hmin, hmax, rfl⟩ := br_process_batch_some alpha batch s h
    constructor
    · exact ⟨rm, isFirstMin_mem _ _ hmin, rfl, hmin.1⟩
    · exact ⟨rx, isFirstMax_mem _ _ hmax, rfl, hmax.1⟩

/-- C1 witness: the layout facts applied to the concrete series
`[10, 20, 30, 40]` with `W = 2` (a dividing case, so the reversed windows
partition the series exactly). -/
theorem c1_backward_windows_amended_witness :
    (process_windows ([10, 20, 30, 40] : List ℕ) 2).reverse.flatten = [10, 20, 30, 40] :=
  (c1_backward_windows_amended.1 ℕ [10, 20, 30, 40] 2 (by decide) (by decide)).2.2
    (Or.inr (by decide))

/-! ## C2 and C4: cert-table row emission and output decision -/

/-- C2 counterexample: an alpha directory whose lower input file is
missing produces no CertRow at all (`process_alpha` models the `continue`
at lines 147-148), contradicting the claim that a blank row is still
emitted when either location is missing. -/
theorem c2_blank_certrow_counterexample :
    LambdaboundCert.process_alpha 12 ⟨"1", none, some ⟨true, true, []⟩⟩ = none := rfl

/-- C2 amended: an alpha yields no row exactly when its directory name
does not parse or either input file is missing; a CertRow with all eight
derived fields blank (alpha still present) is emitted whenever both files
exist but either loads to an empty series. -/
theorem c2_blank_certrow_amended (K : ℕ) (d : LambdaboundCert.AlphaDir) :
    (LambdaboundCert.process_alpha K d = none ↔
      pyFloat? d.alphaStr = none ∨ d.minFile = none ∨ d.maxFile = none) ∧
    (∀ a : ℚ, pyFloat? d.alphaStr = some a →
      ∀ mf xf : LambdaboundCert.InFile, d.minFile = some mf → d.maxFile = some xf →
      (LambdaboundCert.load_lambda_pairs mf = [] ∨
        LambdaboundCert.load_lambda_pairs xf = []) →
      LambdaboundCert.process_alpha K d = some (LambdaboundCert.blankRow a)) := by
  obtain ⟨astr, omf, oxf⟩ := d
  unfold LambdaboundCert.process_alpha
  cases hpf : pyFloat? astr with
  | none =>
    constructor
    · exact ⟨fun _ => Or.inl rfl, fun _ => rfl⟩
    · intro a ha
      cases ha
  | some a =>
    rcases omf with _ | mf
    · constructor
      · exact ⟨fun _ => Or.inr (Or.inl rfl), fun _ => by cases oxf <;> rfl⟩
      · intro a' ha' mf xf hmf
        cases hmf
    rcases oxf with _ | xf
    · constructor
      · exact ⟨fun _ => Or.inr (Or.inr rfl), fun _ => rfl⟩
      · intro a' ha' mf' xf hmf hxf
        cases hxf
    constructor
    · constructor
      · intro hc
        have hc2 : (if ((LambdaboundCert.load_lambda_pairs mf).isEmpty ||
            (LambdaboundCert.load_lambda_pairs xf).isEmpty) = true
            then some (LambdaboundCert.blankRow a) else _) = none := hc
        split at hc2 <;> cases hc2
      · intro hc
        rcases hc with hc | hc | hc
        · cases hc
        · cases hc
        · cases hc
    · intro a' ha' mf' xf' hmf hxf hemp
      cases hmf
      cases hxf
      cases ha'
      have hcond : ((LambdaboundCert.load_lambda_pairs mf).isEmpty ||
          (LambdaboundCert.load_lambda_pairs xf).isEmpty) = true := by
        rcases hemp with hemp | hemp <;> rw [hemp] <;> simp
      show (if ((LambdaboundCert.load_lambda_pairs mf).isEmpty ||
          (LambdaboundCert.load_lambda_pairs xf).isEmpty) = true
          then some (LambdaboundCert.blankRow a) else _) = some (LambdaboundCert.blankRow a)
      rw [if_pos hcond]

/-- C2 witness: both files exist but hold no data rows, so both series are
empty and the blank row for alpha `1` is emitted. -/
theorem c2_blank_certrow_witness :
    LambdaboundCert.process_alpha 12 ⟨"1", some ⟨true, true, []⟩, some ⟨true, true, []⟩⟩
      = some (LambdaboundCert.blankRow 1) :=
  (c2_blank_certrow_amended 12 ⟨"1", some ⟨true, true, []⟩, some ⟨true, true, []⟩⟩).2
    1 (by decide) ⟨true, true, []⟩ ⟨true, true, []⟩ rfl rfl (Or.inl rfl)

/-- C4 counterexample: a grid whose only alpha has both files present but
empty series produces one row whose eight derived fields are all blank,
and the table is still written (`cert_main = some …`), contradicting the
claim that the output is written only when at least one non-empty row
exists and that the run otherwise fails. -/
theorem c4_zero_rows_counterexample :
    ∃ out, LambdaboundCert.cert_main 12
        [⟨"1", some ⟨true, true, []⟩, some ⟨true, true, []⟩⟩] = some out ∧
      ∀ r ∈ out, r.L11_lo = none ∧ r.L11_hi = none ∧ r.L13_lo = none ∧
        r.L13_hi = none ∧ r.Lfinal_lo = none ∧ r.Lfinal_lo_std = none ∧
        r.Lfinal_hi = none ∧ r.Lfinal_hi_std = none := by
  refine ⟨[LambdaboundCert.blankRow 1], rfl, ?_⟩
  intro r hr
  rcases List.mem_singleton.1 hr with rfl
  exact ⟨rfl, rfl, rfl, rfl, rfl, rfl, rfl, rfl⟩

/-- C4 amended: the cert builder fails (writes nothing, exits with an
error) exactly when no alpha directory contributed a row at all — rows
with every derived field blank still count; when it writes, it writes the
nonempty accumulated row list. -/
theorem c4_zero_rows_amended (K : ℕ) (dirs : List LambdaboundCert.AlphaDir) :
    (LambdaboundCert.cert_main K dirs = none ↔
      ∀ d ∈ dirs, LambdaboundCert.process_alpha K d = none) ∧
    (∀ out, LambdaboundCert.cert_main K dirs = some out →
      out ≠ [] ∧ out = dirs.filterMap (LambdaboundCert.process_alpha K)) := by
  unfold LambdaboundCert.cert_main
  by_cases hrw : (dirs.filterMap (LambdaboundCert.process_alpha K)).isEmpty
  · rw [if_pos hrw]
    have hnil : dirs.filterMap (LambdaboundCert.process_alpha K) = [] :=
      List.isEmpty_iff.1 hrw
    constructor
    · refine ⟨fun _ => ?_, fun _ => rfl⟩
      intro d hd
      exact List.filterMap_eq_nil_iff.1 hnil d hd
    · intro out hout
      cases hout
  · rw [if_neg hrw]
    have hne : dirs.filterMap (LambdaboundCert.process_alpha K) ≠ [] := by
      intro hc
      rw [hc] at hrw
      exact hrw rfl
    constructor
    · constructor
      · intro hc
        cases hc
      · intro hall
        exact absurd (List.filterMap_eq_nil_iff.2 hall) hne
    · intro out hout
      cases hout
      exact ⟨hne, rfl⟩

/-- C4 witness: an empty grid accumulates no rows, so the run fails. -/
theorem c4_zero_rows_amended_witness :
    LambdaboundCert.cert_main 12 [] = none :=
  (c4_zero_rows_amended 12 []).1.mpr (by intro d hd; cases hd)

/-! ## C8 and C10: the audit filter -/

/-- Evaluation of the audit filter when the header is missing. -/
theorem audit_main_eval_none (tol : ℚ) (t : LambdaboundAudit.InTable)
    (hh : t.header = none) : LambdaboundAudit.audit_main tol t = none := by
  unfold LambdaboundAudit.audit_main
  rw [hh]

/-- Evaluation of the audit filter when the header is present. -/
theorem audit_main_eval_some (tol : ℚ) (t : LambdaboundAudit.InTable)
    (fields : List String) (hh : t.header = some fields) :
    LambdaboundAudit.audit_main tol t =
      (if (t.rows.filter (LambdaboundAudit.keepRow tol)).isEmpty = true then none
       else some (fields, t.rows.filter (LambdaboundAudit.keepRow tol))) := by
  unfold LambdaboundAudit.audit_main
  rw [hh]

/-- C8: the audit filter fails on a missing header; after a successful run
the kept rows are exactly the input rows whose alpha parses within
tolerance of some allow-listed value (subset, nothing else); it fails
exactly when the header is missing or no row matches; and the allow-list
is the eleven powers of two from `1` to `1/1024` plus the literal
`0.00106494895768`, with default tolerance `1e-12`. -/
theorem c8_audit_filter (tol : ℚ) (t : LambdaboundAudit.InTable) :
    (t.header = none → LambdaboundAudit.audit_main tol t = none) ∧
    (LambdaboundAudit.audit_main tol t = none ↔
      t.header = none ∨ ∀ row ∈ t.rows, LambdaboundAudit.keepRow tol row = false) ∧
    (∀ fields kept, LambdaboundAudit.audit_main tol t = some (fields, kept) →
      kept.Sublist t.rows ∧ kept ≠ [] ∧
      ∀ row, row ∈ kept ↔ row ∈ t.rows ∧ LambdaboundAudit.keepRow tol row = true) ∧
    (∀ row, LambdaboundAudit.keepRow tol row = true ↔
      ∃ a : ℚ, pyFloat? (LambdaboundAudit.rowAlpha row) = some a ∧
        ∃ v ∈ LambdaboundAudit.TARGET_ALPHAS, |a - v| ≤ tol) ∧
    LambdaboundAudit.TARGET_ALPHAS.Perm
      (((List.range 11).map (fun i => (1 : ℚ) / 2 ^ i)) ++ [0.00106494895768]) ∧
    LambdaboundAudit.default_tolerance = 1 / 10 ^ 12 := by
  refine ⟨fun h => audit_main_eval_none tol t h, ?_, ?_, ?_, by decide, by decide⟩
  · cases hh : t.header with
    | none =>
      rw [audit_main_eval_none tol t hh]
      exact ⟨fun _ => Or.inl rfl, fun _ => rfl⟩
    | some fields =>
      rw [audit_main_eval_some tol t fields hh]
      by_cases hk : (t.rows.filter (LambdaboundAudit.keepRow tol)).isEmpty = true
      · rw [if_pos hk]
        have hnil := List.isEmpty_iff.1 hk
        constructor
        · intro _
          refine Or.inr ?_
          intro row hrow
          by_cases hkeep : LambdaboundAudit.keepRow tol row = true
          · exact absurd (List.mem_filter.2 ⟨hrow, hkeep⟩)
              (by rw [hnil]; exact List.not_mem_nil row)
          · exact Bool.eq_false_iff.2 hkeep
        · intro _
          rfl
      · rw [if_neg hk]
        have hne : t.rows.filter (LambdaboundAudit.keepRow tol) ≠ [] := by
          intro hc
          rw [hc] at hk
          exact hk rfl
        constructor
        · intro hc
          cases hc
        · intro hc
          rcases hc with hc | hc
          · cases hc
          · refine absurd (List.filter_eq_nil_iff.2 ?_) hne
            intro row hrow
            rw [hc row hrow]
            exact Bool.false_ne_true
  · intro fields kept h
    cases hh : t.header with
    | none =>
      rw [audit_main_eval_none tol t hh] at h
      cases h
    | some fs =>
      rw [audit_main_eval_some tol t fs hh] at h
      by_cases hk : (t.rows.filter (LambdaboundAudit.keepRow tol)).isEmpty = true
      · rw [if_pos hk] at h
        cases h
      · rw [if_neg hk] at h
        have hne : t.rows.filter (LambdaboundAudit.keepRow tol) ≠ [] := by
          intro hc
          rw [hc] at hk
          exact hk rfl
        cases h
        refine ⟨t.rows.filter_sublist, hne, ?_⟩
        intro row
        exact List.mem_filter
  · intro row
    unfold LambdaboundAudit.keepRow
    cases hp : pyFloat? (LambdaboundAudit.rowAlpha row) with
    | none =>
      simp
    | some a =>
      rw [List.any_eq_true]
      constructor
      · rintro ⟨v, hv, hd⟩
        exact ⟨a, rfl, v, hv, of_decide_eq_true hd⟩
      · rintro ⟨a', ha', v, hv, hd⟩
        cases ha'
        exact ⟨v, hv, decide_eq_true hd⟩

/-- C8 witness: the characterization applied to a concrete two-row table
with tolerance `1e-12`: the header is present, the row with alpha `1` is
kept and the row with alpha `3` is dropped. -/
theorem c8_audit_filter_witness :
    ([[("alpha", "1")]] : List (List (String × String))).Sublist
        [[("alpha", "1")], [("alpha", "3")]] ∧
      [[("alpha", "1")]] ≠ ([] : List (List (String × String))) ∧
      ∀ row, row ∈ [[("alpha", "1")]] ↔
        row ∈ [[("alpha", "1")], [("alpha", "3")]] ∧
          LambdaboundAudit.keepRow (1 / 10 ^ 12) row = true :=
  (c8_audit_filter (1 / 10 ^ 12)
    ⟨some ["alpha"], [[("alpha", "1")], [("alpha", "3")]]⟩).2.2.1
    ["alpha"] [[("alpha", "1")]] (by decide)

/-- C10: when the audit filter writes, it writes under exactly the input
header's field names, the kept rows form a sublist of the input rows (same
relative order, each row's fields untouched), and they are exactly the
rows passing the alpha filter. -/
theorem c10_audit_frame (tol : ℚ) (t : LambdaboundAudit.InTable)
    (fields : List String) (kept : List (List (String × String)))
    (h : LambdaboundAudit.audit_main tol t = some (fields, kept)) :
    t.header = some fields ∧ kept.Sublist t.rows ∧
      kept = t.rows.filter (LambdaboundAudit.keepRow tol) := by
  cases hh : t.header with
  | none =>
    rw [audit_main_eval_none tol t hh] at h
    cases h
  | some fs =>
    rw [audit_main_eval_some tol t fs hh] at h
    by_cases hk : (t.rows.filter (LambdaboundAudit.keepRow tol)).isEmpty = true
    · rw [if_pos hk] at h
      cases h
    · rw [if_neg hk] at h
      cases h
      exact ⟨rfl, t.rows.filter_sublist, rfl⟩

/-- C10 witness: the frame condition applied to a concrete table — the
kept row appears unchanged, under the input header, in input order. -/
theorem c10_audit_frame_witness :
    (⟨some ["alpha"], [[("alpha", "1")], [("alpha", "3")]]⟩ :
        LambdaboundAudit.InTable).header = some ["alpha"] ∧
      ([[("alpha", "1")]] : List (List (String × String))).Sublist
        [[("alpha", "1")], [("alpha", "3")]] ∧
      [[("alpha", "1")]] =
        [[("alpha", "1")], [("alpha", "3")]].filter
          (LambdaboundAudit.keepRow (1 / 10 ^ 12)) :=
  c10_audit_frame (1 / 10 ^ 12) ⟨some ["alpha"], [[("alpha", "1")], [("alpha", "3")]]⟩
    ["alpha"] [[("alpha", "1")]] (by decide)
